import Mathlib

/-!
Verification of the Groups.io scraper pipeline.

The development shallowly embeds the two phases of the pipeline:

* discovery (`000002_main_scraper.py`): pagination via a prioritized list of
  "next"-button detection strategies, accumulating a deduplicated set of
  thread URLs, persisted as a sorted JSON array;
* extraction (`03_main_scraper.py`): per-thread scraping with a checkpoint
  store keyed by URL, resumed by set-difference, flushed every `SAVE_EVERY`
  records and once more on loop exit.

Python strings are modelled as `List Char`; browser interactions are
modelled by oracles describing, per URL or per page, what the browser
would have returned (a navigation outcome, the hrefs present on a page,
the outcome of each locator probe).
-/

/-! ### String primitives (models of Python `str` operations) -/

/-- Whitespace test used by the model of Python `str.strip`. -/
def isWs (c : Char) : Bool := c.isWhitespace

/-- Model of Python `s.strip()`: drop whitespace from both ends. -/
def trimChars (l : List Char) : List Char :=
  ((l.dropWhile isWs).reverse.dropWhile isWs).reverse

/-- Model of Python `s.split(d)` for a single-character separator `d`:
split into the (possibly empty) segments between occurrences of `d`. -/
def splitOnChar (d : Char) : List Char → List (List Char)
  | [] => [[]]
  | c :: rest =>
    if c = d then [] :: splitOnChar d rest
    else
      match splitOnChar d rest with
      | [] => [[c]]
      | p :: ps => (c :: p) :: ps

/-- Model of Python `d.join(parts)` for a single-character separator. -/
def joinSep (d : Char) : List (List Char) → List Char
  | [] => []
  | [l] => l
  | l :: ls => l ++ d :: joinSep d ls

/-- String-valued wrapper around `trimChars`. -/
def trimStr (s : String) : String := String.mk (trimChars s.data)

/-! ### Thread extractor (`03_main_scraper.py`) -/

/-- The generator inside the body cleanup of `03_main_scraper.py` line 69:
`(line.strip() for line in body.splitlines() if line.strip())`. -/
def cleanLines (l : List Char) : List (List Char) :=
  ((splitOnChar '\n' l).map trimChars).filter (fun p => p ≠ [])

/-- Body cleanup from `03_main_scraper.py` line 69:
`"\n".join(line.strip() for line in body.splitlines() if line.strip())`. -/
def cleanBody (l : List Char) : List Char :=
  joinSep '\n' (cleanLines l)

/-- String-valued wrapper around `cleanBody`. -/
def cleanBodyStr (s : String) : String := String.mk (cleanBody s.data)

/-- One extracted message (`03_main_scraper.py` lines 73-77). -/
structure Message where
  author : String
  timestamp : String
  body : String
deriving DecidableEq, Repr

/-- One extracted thread record (`03_main_scraper.py` lines 79-83). -/
structure ThreadRecord where
  url : String
  title : String
  messages : List Message
deriving DecidableEq, Repr

/-- What the browser yields for one `div.expanded-message` container: for
each of the three fields, `none` means the locator raised or returned
null, `some s` means the field fetch produced the string `s`. -/
structure MsgContainer where
  authorSrc : Option String
  timestampSrc : Option String
  bodySrc : Option String
deriving DecidableEq, Repr

/-- Model of `x.strip() if x else "N/A"` applied to a fetched field that
defaulted to `"N/A"` on an extraction exception (lines 51-63 and 73-75):
an exception, a null return and an empty string all end as `"N/A"`. -/
def fieldValue (v : Option String) : String :=
  match v with
  | none => "N/A"
  | some s => if s = "" then "N/A" else trimStr s

/-- Per-container message extraction (`03_main_scraper.py` lines 50-77):
each field is fetched independently, degraded to its sentinel on failure;
the body, when fetched, is cleaned by `cleanBody` and stored unguarded. -/
def extract_message (c : MsgContainer) : Message :=
  { author := fieldValue c.authorSrc
  , timestamp := fieldValue c.timestampSrc
  , body := match c.bodySrc with
            | none => "N/A"
            | some s => cleanBodyStr s }

/-- The message loop (`03_main_scraper.py` lines 50-77): one `Message` per
container, in order. -/
def scrape_messages (cs : List MsgContainer) : List Message :=
  cs.map extract_message

/-- Title parsing (`03_main_scraper.py` lines 33-42): `none` models
`page.title()` raising; otherwise split on `'|'` and take the last part,
trimmed, when the delimiter occurs, else the raw title. -/
def scrape_title (t : Option String) : String :=
  match t with
  | none => "Title not found"
  | some full =>
    let parts := splitOnChar '|' full.data
    if parts.length > 1 then String.mk (trimChars (parts.getLastD [])) else full

/-- What the browser yields for one rendered thread page. -/
structure PageView where
  titleSrc : Option String
  containers : List MsgContainer
deriving DecidableEq, Repr

/-- Outcome of navigating to a thread URL and waiting for
`div.expanded-message` (`03_main_scraper.py` lines 22-31). -/
inductive NavOutcome where
  | timeout
  | navError
  | loaded (view : PageView)
deriving DecidableEq, Repr

/-- Per-thread extraction (`03_main_scraper.py` lines 16-83): timeouts and
navigation errors yield `none`; a loaded page yields a record whose title
falls through `title.strip() if title else "N/A"` (line 81). -/
def scrape_thread_page (url : String) (nav : NavOutcome) : Option ThreadRecord :=
  match nav with
  | .timeout => none
  | .navError => none
  | .loaded v =>
    let title := scrape_title v.titleSrc
    some { url := url
         , title := if title = "" then "N/A" else trimStr title
         , messages := scrape_messages v.containers }

/-! ### Checkpoint store (`03_main_scraper.py` main, lines 88-142) -/

/-- The checkpoint mapping, modelled as a key-ordered association list with
Python-dict semantics. -/
abbrev Store := List (String × ThreadRecord)

/-- Model of `scraped_data[url] = thread_data`: update in place when the
key is present, append otherwise. -/
def dictInsert : Store → String → ThreadRecord → Store
  | [], k, v => [(k, v)]
  | kv :: rest, k, v =>
    if kv.1 = k then (k, v) :: rest else kv :: dictInsert rest k v

/-- Dictionary lookup. -/
def lookupStore (store : Store) (k : String) : Option ThreadRecord :=
  (store.find? (fun kv => kv.1 = k)).map Prod.snd

/-- Model of `url in set(scraped_data.keys())`. -/
def containsKey (store : Store) (k : String) : Bool :=
  store.any (fun kv => kv.1 = k)

/-- Flush batch size (`SAVE_EVERY = 10`, `03_main_scraper.py` line 12). -/
def SAVE_EVERY : Nat := 10

/-- The external world one run of `main` observes: which artifacts exist,
their parsed contents, and the navigation oracle for each thread URL. -/
structure World where
  authExists : Bool
  urlsExists : Bool
  urlsContent : List String
  dataExists : Bool
  dataContent : Store
  nav : String → NavOutcome

/-- The prior checkpoint state (`03_main_scraper.py` lines 100-104):
the parsed data file when present, else empty. -/
def priorStore (w : World) : Store :=
  if w.dataExists then w.dataContent else []

/-- Extraction for one URL within a world. -/
def extractO (w : World) (u : String) : Option ThreadRecord :=
  scrape_thread_page u (w.nav u)

/-- The remaining work (`03_main_scraper.py` lines 106-107):
`[url for url in urls_to_scrape if url not in already_scraped_urls]`. -/
def urls_to_process (w : World) : List String :=
  w.urlsContent.filter (fun u => !(containsKey (priorStore w) u))

/-- The main loop (`03_main_scraper.py` lines 122-141): process each URL,
record successful extractions, dump the store when
`(i + 1) % SAVE_EVERY == 0 or i == total_urls - 1`, and dump once more
unconditionally in the `finally` block. Returns the final store and the
sequence of store snapshots written to the data file, in order. -/
def loopGo (ex : String → Option ThreadRecord) (total : Nat) :
    List String → Nat → Store → Store × List Store
  | [], _, store => (store, [store])
  | u :: rest, i, store =>
    let store' := match ex u with
                  | some r => dictInsert store u r
                  | none => store
    let here := if (i + 1) % SAVE_EVERY = 0 ∨ i = total - 1 then [store'] else []
    let next := loopGo ex total rest (i + 1) store'
    (next.1, here ++ next.2)

/-- Observable outcome of one run of `main`: the thread URLs navigated to,
the store snapshots written to the data file, and the final in-memory
store. -/
structure RunResult where
  navigations : List String
  writes : List Store
  finalStore : Store
deriving Repr

/-- Model of `main` (`03_main_scraper.py` lines 88-142): early return with
no navigation and no write when the auth artifact or the URLs artifact is
absent, or when no work remains; otherwise run the loop over the
set-difference. -/
def mainRun (w : World) : RunResult :=
  if w.authExists = false then ⟨[], [], []⟩
  else if w.urlsExists = false then ⟨[], [], []⟩
  else if (urls_to_process w).isEmpty then ⟨[], [], priorStore w⟩
  else
    ⟨urls_to_process w,
     (loopGo (extractO w) (urls_to_process w).length (urls_to_process w) 0 (priorStore w)).2,
     (loopGo (extractO w) (urls_to_process w).length (urls_to_process w) 0 (priorStore w)).1⟩

/-! ### Pagination strategy resolver (`000002_main_scraper.py` lines 14-45,
`00002_main_scraper.py` lines 14-45) -/

/-- Outcome of probing one locator strategy: the candidate is currently
visible (and the click succeeds), the probe reports not-visible, the probe
raises `TimeoutError`, or the probe raises some other exception. -/
inductive ProbeOutcome where
  | visible
  | notVisible
  | timeoutErr
  | otherErr
deriving DecidableEq, Repr

/-- Model of `find_and_click_next_page` in `000002_main_scraper.py`:
strategies are tried in order; `except (TimeoutError, Exception)` absorbs
every probe failure, so only a visible match returns `true` and exhaustion
returns `false`. -/
def find_and_click_next_page : List ProbeOutcome → Except Unit Bool
  | [] => .ok false
  | .visible :: _ => .ok true
  | _ :: rest => find_and_click_next_page rest

/-- Model of `find_and_click_next_page` in `00002_main_scraper.py`:
identical strategy walk, but `except TimeoutError` is the only handler, so
a probe raising any other exception propagates out of the function. -/
def find_and_click_next_page_v0 : List ProbeOutcome → Except Unit Bool
  | [] => .ok false
  | .visible :: _ => .ok true
  | .notVisible :: rest => find_and_click_next_page_v0 rest
  | .timeoutErr :: rest => find_and_click_next_page_v0 rest
  | .otherErr :: _ => .error ()

/-! ### URL discovery engine (`000002_main_scraper.py` lines 48-92, 109-112) -/

/-- Model of adding one URL to the accumulated set `seen_urls`:
membership-preserving insert. -/
def setInsert (s : List String) (x : String) : List String :=
  if x ∈ s then s else s ++ [x]

/-- Model of one page's collection step (`000002_main_scraper.py` lines
64-78): each non-null href is resolved to `f"https://groups.io{href}"` and
added to the accumulated set. -/
def addPageUrls (seen : List String) (hrefs : List (Option String)) : List String :=
  hrefs.foldl
    (fun acc h =>
      match h with
      | none => acc
      | some href => setInsert acc ("https://groups.io" ++ href))
    seen

/-- Model of the discovery loop (`000002_main_scraper.py` lines 57-92):
`advance p` is whether `find_and_click_next_page` succeeds while viewing
page `p`; `links p` gives the hrefs of the thread links found on page `p`.
The loop collects the page's URLs, then advances or terminates; `fuel`
bounds the number of iterations so the model is total, and `none` means
the loop was still running when the fuel ran out. On termination the
result carries the final `page_count` and the accumulated URL set. -/
def get_all_thread_urls (advance : Nat → Bool) (links : Nat → List (Option String)) :
    Nat → Nat → List String → Option (Nat × List String)
  | 0, _, _ => none
  | fuel + 1, page_count, seen =>
    let seen' := addPageUrls seen (links page_count)
    if advance page_count then
      get_all_thread_urls advance links fuel (page_count + 1) seen'
    else
      some (page_count, seen')

/-- Lexicographic code-point order on character lists, the order Python
`sorted` uses on strings. -/
def lexLe : List Char → List Char → Bool
  | [], _ => true
  | _ :: _, [] => false
  | a :: as, b :: bs =>
    if a.toNat < b.toNat then true
    else if b.toNat < a.toNat then false
    else lexLe as bs

/-- Boolean order used to model Python `sorted` on strings. -/
def strLe (a b : String) : Bool := lexLe a.data b.data

/-- Sorted insertion of one string. -/
def insertSorted (x : String) : List String → List String
  | [] => [x]
  | y :: ys => if strLe x y then x :: y :: ys else y :: insertSorted x ys

/-- Model of Python `sorted` on a list of strings: insertion sort under
the lexicographic order. -/
def sortStrings (l : List String) : List String :=
  l.foldr insertSorted []

/-- Phase-1 artifact (`000002_main_scraper.py` lines 109-112): the
collected URL set, persisted as `json.dump(sorted(thread_urls), ...)`. -/
def discovery_artifact (advance : Nat → Bool) (links : Nat → List (Option String))
    (fuel : Nat) : Option (List String) :=
  (get_all_thread_urls advance links fuel 1 []).map (fun r => sortStrings r.2)

/-! ### Looping discovery variant (`02_main_scraper.py` lines 13-63) -/

/-- Outcome of navigating to one numbered topics page and waiting for the
thread-link selector (`02_main_scraper.py` lines 33-39): the wait timed
out, or the page loaded with the given thread-link hrefs. -/
inductive PageFetch where
  | timeout
  | loaded (hrefs : List (Option String))
deriving DecidableEq, Repr

/-- The fixed page range of `02_main_scraper.py` line 13:
`PAGE_RANGE = range(1, 10)`, the numbers 1 through 9. -/
def PAGE_RANGE : List Nat := List.range' 1 9

/-- Model of the loop of `get_all_thread_urls_by_looping`
(`02_main_scraper.py` lines 29-59): iterate the given page numbers; a page
timeout breaks (lines 37-39), a page with zero thread links breaks (lines
44-46), otherwise every non-null href is resolved to
`f"https://groups.io{href}"` and added to the set. Returns the accumulated
set and the pages whose links were collected, in order. -/
def get_by_looping_go (pages : Nat → PageFetch) :
    List Nat → List String → List String × List Nat
  | [], seen => (seen, [])
  | p :: rest, seen =>
    match pages p with
    | .timeout => (seen, [])
    | .loaded hrefs =>
      if hrefs.isEmpty then (seen, [])
      else
        let next := get_by_looping_go pages rest (addPageUrls seen hrefs)
        (next.1, p :: next.2)

/-- Model of `get_all_thread_urls_by_looping` (`02_main_scraper.py` lines
18-63): run the loop over the fixed page range starting from the empty
set. -/
def get_all_thread_urls_by_looping (pages : Nat → PageFetch) :
    List String × List Nat :=
  get_by_looping_go pages PAGE_RANGE []

/-! ### Statement-side characterizations

These definitions are not translations of the source; they restate, in
independent vocabulary, what the claims assert so that the theorems about
the source definitions are not tautologies. -/

/-- Characterization of "the text after the last occurrence of the
delimiter": the longest delimiter-free suffix. -/
def afterLastDelim (d : Char) (l : List Char) : List Char :=
  (l.reverse.takeWhile (fun c => c ≠ d)).reverse

/-- Characterization of the lines of a string, matching Python
`splitlines` on newline-separated text: the empty string has no lines. -/
def linesOf (l : List Char) : List (List Char) :=
  if l = [] then [] else splitOnChar '\n' l

/-- Characterization of the records newly extracted during one run: one
entry per processed URL whose extraction succeeded. -/
def newRecords (w : World) : Store :=
  (urls_to_process w).filterMap (fun u => (extractO w u).map (fun r => (u, r)))

/-! ### Concrete worlds used to instantiate the theorems -/

/-- Concrete world with 23 distinct URLs, no prior data file, and every
navigation succeeding. -/
def w23 : World :=
  { authExists := true
  , urlsExists := true
  , urlsContent := (List.range 23).map (fun i => String.mk ('u' :: Nat.toDigits 10 i))
  , dataExists := false
  , dataContent := []
  , nav := fun _ => NavOutcome.loaded { titleSrc := some "t", containers := [] } }

/-- A prior record for the resume scenario. -/
def recA : ThreadRecord := { url := "a", title := "t", messages := [] }

/-- Concrete resume scenario: three input URLs, one already recorded in the
prior data file, one timing out during navigation. -/
def wResume : World :=
  { authExists := true
  , urlsExists := true
  , urlsContent := ["a", "b", "c"]
  , dataExists := true
  , dataContent := [("a", recA)]
  , nav := fun u =>
      if u = "c" then NavOutcome.timeout
      else NavOutcome.loaded { titleSrc := some "g | t", containers := [] } }

/-- Concrete page oracle for the looping discovery variant: page 2 carries
zero thread links while pages 1 and 3 carry links, and no page times
out. -/
def pagesZero : Nat → PageFetch := fun p =>
  if p = 2 then PageFetch.loaded []
  else if p = 1 then PageFetch.loaded [some "/g/p1"]
  else PageFetch.loaded [some "/g/p3"]

/-- Concrete world with the session artifact absent. -/
def wNoAuth : World :=
  { authExists := false
  , urlsExists := true
  , urlsContent := ["a"]
  , dataExists := false
  , dataContent := []
  , nav := fun _ => NavOutcome.timeout }

/-! ### Lemmas about the string primitives -/

theorem splitOnChar_ne_nil (d : Char) (l : List Char) : splitOnChar d l ≠ [] := by
  induction l with
  | nil => simp [splitOnChar]
  | cons c rest ih =>
    simp only [splitOnChar]
    split
    · simp
    · cases h : splitOnChar d rest with
      | nil => simp
      | cons p ps => simp

theorem not_mem_of_mem_splitOnChar (d : Char) (l : List Char) :
    ∀ p ∈ splitOnChar d l, d ∉ p := by
  induction l with
  | nil =>
    intro p hp
    simp [splitOnChar] at hp
    simp [hp]
  | cons c rest ih =>
    intro p hp
    simp only [splitOnChar] at hp
    split at hp
    · rcases List.mem_cons.mp hp with h | h
      · simp [h]
      · exact ih p h
    · rename_i hcd
      cases hsp : splitOnChar d rest with
      | nil => exact absurd hsp (splitOnChar_ne_nil d rest)
      | cons q qs =>
        rw [hsp] at hp
        rcases List.mem_cons.mp hp with h | h
        · subst h
          intro hmem
          rcases List.mem_cons.mp hmem with h | h
          · exact hcd h.symm
          · exact ih q (hsp ▸ List.mem_cons_self q qs) h
        · exact ih p (hsp ▸ List.mem_cons_of_mem q h)

theorem splitOnChar_of_not_mem (d : Char) (l : List Char) (h : d ∉ l) :
    splitOnChar d l = [l] := by
  induction l with
  | nil => simp [splitOnChar]
  | cons c rest ih =>
    simp only [splitOnChar]
    have hcd : ¬ c = d := fun hc => h (hc ▸ List.mem_cons_self c rest)
    rw [if_neg hcd, ih (fun hm => h (List.mem_cons_of_mem c hm))]

theorem one_lt_length_splitOnChar (d : Char) (l : List Char) :
    1 < (splitOnChar d l).length ↔ d ∈ l := by
  induction l with
  | nil => simp [splitOnChar]
  | cons c rest ih =>
    simp only [splitOnChar]
    by_cases hcd : c = d
    · subst hcd
      rw [if_pos rfl]
      have := splitOnChar_ne_nil c rest
      constructor
      · intro _
        exact List.mem_cons_self c rest
      · intro _
        have : 0 < (splitOnChar c rest).length := List.length_pos.mpr this
        simpa using this
    · rw [if_neg hcd]
      cases hsp : splitOnChar d rest with
      | nil => exact absurd hsp (splitOnChar_ne_nil d rest)
      | cons q qs =>
        rw [hsp] at ih
        simp only [List.length_cons] at ih ⊢
        constructor
        · intro h
          exact List.mem_cons_of_mem c (ih.mp h)
        · intro h
          rcases List.mem_cons.mp h with h | h
          · exact absurd h.symm hcd
          · exact ih.mpr h

theorem splitOnChar_append_not_mem (d : Char) (l r : List Char) (h : d ∉ l) :
    splitOnChar d (l ++ r) = List.modifyHead (fun p => l ++ p) (splitOnChar d r) := by
  induction l with
  | nil =>
    cases hsp : splitOnChar d r with
    | nil => exact absurd hsp (splitOnChar_ne_nil d r)
    | cons q qs => simp [hsp]
  | cons c rest ih =>
    have hcd : ¬ c = d := fun hc => h (hc ▸ List.mem_cons_self c rest)
    have hrest : d ∉ rest := fun hm => h (List.mem_cons_of_mem c hm)
    cases hsp : splitOnChar d r with
    | nil => exact absurd hsp (splitOnChar_ne_nil d r)
    | cons q qs =>
      have hr : splitOnChar d (rest ++ r) = (rest ++ q) :: qs := by
        rw [ih hrest, hsp]
        rfl
      simp only [List.cons_append, splitOnChar, if_neg hcd, List.append_eq]
      rw [hr]
      simp

theorem splitOnChar_joinSep (d : Char) (ls : List (List Char)) (hne : ls ≠ [])
    (hfree : ∀ p ∈ ls, d ∉ p) :
    splitOnChar d (joinSep d ls) = ls := by
  induction ls with
  | nil => exact absurd rfl hne
  | cons p ps ih =>
    cases ps with
    | nil =>
      simp only [joinSep]
      exact splitOnChar_of_not_mem d p (hfree p (List.mem_cons_self p []))
    | cons q qs =>
      have hp : d ∉ p := hfree p (List.mem_cons_self p (q :: qs))
      show splitOnChar d (p ++ d :: joinSep d (q :: qs)) = p :: q :: qs
      rw [splitOnChar_append_not_mem d p _ hp]
      have : splitOnChar d (d :: joinSep d (q :: qs)) = [] :: splitOnChar d (joinSep d (q :: qs)) := by
        simp [splitOnChar]
      rw [this, ih (by simp) (fun x hx => hfree x (List.mem_cons_of_mem p hx))]
      simp

theorem joinSep_ne_nil (d : Char) (ls : List (List Char)) (hne : ls ≠ [])
    (hparts : ∀ p ∈ ls, p ≠ []) : joinSep d ls ≠ [] := by
  cases ls with
  | nil => exact absurd rfl hne
  | cons p ps =>
    cases ps with
    | nil => exact hparts p (List.mem_cons_self p [])
    | cons q qs => simp [joinSep]

theorem head?_dropWhile_not (p : α → Bool) (l : List α) :
    ∀ x ∈ (l.dropWhile p).head?, p x = false := by
  induction l with
  | nil => simp
  | cons c rest ih =>
    intro x hx
    rw [List.dropWhile_cons] at hx
    split at hx
    · exact ih x hx
    · rename_i hc
      simp only [List.head?_cons, Option.mem_def, Option.some.injEq] at hx
      subst hx
      exact Bool.not_eq_true _ ▸ (by simpa using hc)

theorem dropWhile_eq_self_of_head (p : α → Bool) (l : List α)
    (h : ∀ x ∈ l.head?, p x = false) : l.dropWhile p = l := by
  cases l with
  | nil => rfl
  | cons c rest =>
    have := h c (by simp)
    simp [List.dropWhile_cons, this]

theorem getLast?_dropWhile (p : α → Bool) (l : List α) (h : l.dropWhile p ≠ []) :
    (l.dropWhile p).getLast? = l.getLast? := by
  induction l with
  | nil => simp at h
  | cons c rest ih =>
    rw [List.dropWhile_cons]
    rw [List.dropWhile_cons] at h
    split
    · rename_i hc
      rw [if_pos hc] at h
      have hrest : rest ≠ [] := by
        intro hr
        subst hr
        simp [List.dropWhile] at h
      rw [ih h]
      cases rest with
      | nil => exact absurd rfl hrest
      | cons x xs => exact (List.getLast?_cons_cons).symm
    · rfl

theorem mem_trimChars (c : Char) (l : List Char) (h : c ∈ trimChars l) : c ∈ l := by
  unfold trimChars at h
  rw [List.mem_reverse] at h
  have h1 := (List.dropWhile_sublist isWs).mem h
  rw [List.mem_reverse] at h1
  exact (List.dropWhile_sublist isWs).mem h1

theorem trimChars_ends (l : List Char) :
    (∀ x ∈ (trimChars l).head?, isWs x = false) ∧
    (∀ x ∈ (trimChars l).getLast?, isWs x = false) := by
  unfold trimChars
  set a := l.dropWhile isWs with ha
  set b := a.reverse.dropWhile isWs with hb
  constructor
  · intro x hx
    rw [List.head?_reverse] at hx
    by_cases hbnil : b = []
    · rw [hbnil] at hx
      simp at hx
    · rw [hb, getLast?_dropWhile isWs a.reverse (hb ▸ hbnil)] at hx
      rw [List.getLast?_reverse] at hx
      exact head?_dropWhile_not isWs l x (ha ▸ hx)
  · intro x hx
    rw [List.getLast?_reverse] at hx
    exact head?_dropWhile_not isWs a.reverse x hx

theorem trimChars_idem (l : List Char) : trimChars (trimChars l) = trimChars l := by
  obtain ⟨hh, hl⟩ := trimChars_ends l
  show ((((trimChars l).dropWhile isWs).reverse.dropWhile isWs).reverse) = trimChars l
  rw [dropWhile_eq_self_of_head isWs (trimChars l) hh]
  rw [dropWhile_eq_self_of_head isWs (trimChars l).reverse
      (by
        intro x hx
        rw [List.head?_reverse] at hx
        exact hl x hx)]
  exact List.reverse_reverse _

theorem map_fixed_eq_self (f : α → α) (l : List α) (h : ∀ x ∈ l, f x = x) :
    l.map f = l := by
  induction l with
  | nil => rfl
  | cons c rest ih =>
    simp only [List.map_cons, h c (List.mem_cons_self c rest),
      ih (fun x hx => h x (List.mem_cons_of_mem c hx))]

theorem cleanLines_spec (l : List Char) :
    ∀ p ∈ cleanLines l, p ≠ [] ∧ trimChars p = p ∧ '\n' ∉ p := by
  intro p hp
  unfold cleanLines at hp
  rw [List.mem_filter] at hp
  obtain ⟨hmem, hne⟩ := hp
  rw [List.mem_map] at hmem
  obtain ⟨q, hq, rfl⟩ := hmem
  refine ⟨by simpa using hne, trimChars_idem q, ?_⟩
  intro hnl
  exact not_mem_of_mem_splitOnChar '\n' l q hq (mem_trimChars _ q hnl)

theorem cleanLines_cleanBody (l : List Char) (h : cleanLines l ≠ []) :
    splitOnChar '\n' (cleanBody l) = cleanLines l := by
  unfold cleanBody
  exact splitOnChar_joinSep '\n' (cleanLines l) h
    (fun p hp => (cleanLines_spec l p hp).2.2)

theorem cleanBody_idem (l : List Char) : cleanBody (cleanBody l) = cleanBody l := by
  by_cases h : cleanLines l = []
  · have hnil : cleanBody l = [] := by
      unfold cleanBody
      rw [h]
      rfl
    rw [hnil]
    rfl
  · have h1 : cleanLines (cleanBody l) = cleanLines l := by
      show ((splitOnChar '\n' (cleanBody l)).map trimChars).filter (fun p => p ≠ []) = cleanLines l
      rw [cleanLines_cleanBody l h,
        map_fixed_eq_self trimChars (cleanLines l) (fun p hp => (cleanLines_spec l p hp).2.1),
        List.filter_eq_self.mpr (fun p hp => by simpa using (cleanLines_spec l p hp).1)]
    show joinSep '\n' (cleanLines (cleanBody l)) = cleanBody l
    rw [h1]
    rfl

theorem linesOf_cleanBody (l : List Char) :
    ∀ p ∈ linesOf (cleanBody l), p ≠ [] ∧ trimChars p = p := by
  intro p hp
  unfold linesOf at hp
  split at hp
  · simp at hp
  · rename_i hne
    have hcl : cleanLines l ≠ [] := by
      intro h0
      apply hne
      unfold cleanBody
      rw [h0]
      rfl
    rw [cleanLines_cleanBody l hcl] at hp
    exact ⟨(cleanLines_spec l p hp).1, (cleanLines_spec l p hp).2.1⟩

/-- C10: the body-cleanup step (trim each line, drop blank lines, rejoin
with newlines) is idempotent, and every line of its output is nonempty and
carries no leading or trailing whitespace. -/
theorem body_normalization_idempotent :
    (∀ l : List Char, cleanBody (cleanBody l) = cleanBody l) ∧
    (∀ l : List Char, ∀ p ∈ linesOf (cleanBody l), p ≠ [] ∧ trimChars p = p) :=
  ⟨cleanBody_idem, linesOf_cleanBody⟩

/-- Concrete instantiation of `body_normalization_idempotent`. -/
theorem body_normalization_idempotent_witness :
    cleanBody (cleanBody "  a \n\n b ".data) = cleanBody "  a \n\n b ".data ∧
    ("a".data ≠ [] ∧ trimChars "a".data = "a".data) :=
  ⟨body_normalization_idempotent.1 "  a \n\n b ".data,
   body_normalization_idempotent.2 "  a \n\n b ".data "a".data (by decide)⟩

/-! ### Lemmas about the checkpoint store -/

theorem lookupStore_nil (k : String) : lookupStore [] k = none := rfl

theorem lookupStore_cons (kv : String × ThreadRecord) (rest : Store) (k : String) :
    lookupStore (kv :: rest) k =
      if kv.1 = k then some kv.2 else lookupStore rest k := by
  by_cases h : kv.1 = k
  · simp [lookupStore, List.find?_cons, h]
  · simp [lookupStore, List.find?_cons, h]

theorem lookupStore_dictInsert (s : Store) (k k' : String) (v : ThreadRecord) :
    lookupStore (dictInsert s k v) k' =
      if k' = k then some v else lookupStore s k' := by
  induction s with
  | nil =>
    by_cases h : k' = k
    · subst h
      simp [dictInsert, lookupStore_cons]
    · have h2 : ¬ k = k' := fun hh => h hh.symm
      simp [dictInsert, lookupStore_cons, h, h2]
  | cons kv rest ih =>
    by_cases hkv : kv.1 = k
    · simp only [dictInsert, if_pos hkv]
      by_cases h : k' = k
      · simp [lookupStore_cons, h]
      · rw [lookupStore_cons, lookupStore_cons, if_neg h]
        have : ¬ k = k' := fun hh => h hh.symm
        rw [if_neg this, if_neg (hkv ▸ this)]
    · simp only [dictInsert, if_neg hkv]
      rw [lookupStore_cons, lookupStore_cons, ih]
      by_cases hj : kv.1 = k'
      · have : ¬ k' = k := fun hh => hkv (hh ▸ hj)
        rw [if_pos hj, if_pos hj, if_neg this]
      · rw [if_neg hj, if_neg hj]

theorem lookupStore_eq_none_of_not_containsKey (s : Store) (k : String)
    (h : containsKey s k = false) : lookupStore s k = none := by
  induction s with
  | nil => rfl
  | cons kv rest ih =>
    simp only [containsKey, List.any_cons, Bool.or_eq_false_iff] at h
    rw [lookupStore_cons, if_neg (by simpa using h.1)]
    exact ih (by simpa [containsKey] using h.2)

theorem not_mem_urls_to_process (w : World) (k : String)
    (h : containsKey (priorStore w) k = true) : k ∉ urls_to_process w := by
  intro hmem
  unfold urls_to_process at hmem
  rw [List.mem_filter] at hmem
  rw [h] at hmem
  simpa using hmem.2

theorem loopGo_fst_lookup (ex : String → Option ThreadRecord) (total : Nat)
    (urls : List String) :
    ∀ (i : Nat) (store : Store) (k : String),
    lookupStore (loopGo ex total urls i store).1 k =
      if k ∈ urls ∧ (ex k).isSome then ex k else lookupStore store k := by
  induction urls with
  | nil =>
    intro i store k
    simp [loopGo]
  | cons u rest ih =>
    intro i store k
    have hfst : (loopGo ex total (u :: rest) i store).1 =
        (loopGo ex total rest (i + 1)
          (match ex u with
           | some r => dictInsert store u r
           | none => store)).1 := rfl
    rw [hfst, ih]
    by_cases hr : k ∈ rest ∧ (ex k).isSome
    · rw [if_pos hr, if_pos ⟨List.mem_cons_of_mem u hr.1, hr.2⟩]
    · rw [if_neg hr]
      by_cases hku : k = u
      · subst hku
        cases hex : ex k with
        | none =>
          simp only [hex]
          rw [if_neg (by simp [hex])]
        | some r =>
          simp only [hex]
          rw [lookupStore_dictInsert, if_pos rfl,
            if_pos ⟨List.mem_cons_self k rest, by simp [hex]⟩]
      · have hcond : ¬ (k ∈ u :: rest ∧ (ex k).isSome) := by
          intro hc
          rcases List.mem_cons.mp hc.1 with h | h
          · exact hku h
          · exact hr ⟨h, hc.2⟩
        rw [if_neg hcond]
        cases hex : ex u with
        | none => rfl
        | some r =>
          simp only
          rw [lookupStore_dictInsert, if_neg hku]

theorem loopGo_snd_length (ex : String → Option ThreadRecord) (total : Nat)
    (urls : List String) :
    ∀ (i : Nat) (store : Store),
    (loopGo ex total urls i store).2.length =
      (List.range' i urls.length).countP
        (fun j => decide ((j + 1) % SAVE_EVERY = 0 ∨ j = total - 1)) + 1 := by
  induction urls with
  | nil =>
    intro i store
    simp [loopGo]
  | cons u rest ih =>
    intro i store
    have hsnd : (loopGo ex total (u :: rest) i store).2 =
        (if (i + 1) % SAVE_EVERY = 0 ∨ i = total - 1 then
          [match ex u with
           | some r => dictInsert store u r
           | none => store] else []) ++
        (loopGo ex total rest (i + 1)
          (match ex u with
           | some r => dictInsert store u r
           | none => store)).2 := rfl
    rw [hsnd, List.length_append, ih]
    rw [List.length_cons, List.range'_succ, List.countP_cons]
    by_cases hc : (i + 1) % SAVE_EVERY = 0 ∨ i = total - 1
    · rw [if_pos hc, if_pos (by simpa using hc)]
      simp only [List.length_cons, List.length_nil]
      omega
    · rw [if_neg hc, if_neg (by simpa using hc)]
      simp only [List.length_nil]
      omega

theorem lookupStore_filterMap (ex : String → Option ThreadRecord)
    (urls : List String) (k : String) :
    lookupStore (urls.filterMap (fun u => (ex u).map (fun r => (u, r)))) k =
      if k ∈ urls then ex k else none := by
  induction urls with
  | nil => simp [lookupStore_nil]
  | cons u rest ih =>
    rw [List.filterMap_cons]
    cases hex : ex u with
    | none =>
      simp only [Option.map_none']
      rw [ih]
      by_cases hkr : k ∈ rest
      · rw [if_pos hkr, if_pos (List.mem_cons_of_mem u hkr)]
      · rw [if_neg hkr]
        by_cases hku : k = u
        · subst hku
          rw [if_pos (List.mem_cons_self k rest), hex]
        · rw [if_neg (fun hc => by
            rcases List.mem_cons.mp hc with h | h
            · exact hku h
            · exact hkr h)]
    | some r =>
      simp only [Option.map_some']
      rw [lookupStore_cons]
      by_cases hku : u = k
      · subst hku
        rw [if_pos rfl, if_pos (List.mem_cons_self u rest), hex]
      · rw [if_neg hku, ih]
        by_cases hkr : k ∈ rest
        · rw [if_pos hkr, if_pos (List.mem_cons_of_mem u hkr)]
        · rw [if_neg hkr, if_neg (fun hc => by
            rcases List.mem_cons.mp hc with h | h
            · exact hku h.symm
            · exact hkr h)]

theorem mainRun_eq_run (w : World) (hauth : w.authExists = true)
    (hurls : w.urlsExists = true) (hne : (urls_to_process w).isEmpty = false) :
    mainRun w =
      ⟨urls_to_process w,
       (loopGo (extractO w) (urls_to_process w).length (urls_to_process w) 0 (priorStore w)).2,
       (loopGo (extractO w) (urls_to_process w).length (urls_to_process w) 0 (priorStore w)).1⟩ := by
  simp [mainRun, hauth, hurls, hne]

theorem mainRun_eq_done (w : World) (hauth : w.authExists = true)
    (hurls : w.urlsExists = true) (hem : (urls_to_process w).isEmpty = true) :
    mainRun w = ⟨[], [], priorStore w⟩ := by
  simp [mainRun, hauth, hurls, hem]

theorem mainRun_final_lookup (w : World) (hauth : w.authExists = true)
    (hurls : w.urlsExists = true) (k : String) :
    lookupStore (mainRun w).finalStore k =
      if containsKey (priorStore w) k = true then lookupStore (priorStore w) k
      else lookupStore (newRecords w) k := by
  have hnew : lookupStore (newRecords w) k =
      if k ∈ urls_to_process w then extractO w k else none := by
    unfold newRecords
    exact lookupStore_filterMap (extractO w) (urls_to_process w) k
  by_cases hem : (urls_to_process w).isEmpty
  · have hempty : urls_to_process w = [] := List.isEmpty_iff.mp hem
    rw [mainRun_eq_done w hauth hurls hem]
    by_cases hck : containsKey (priorStore w) k = true
    · rw [if_pos hck]
    · rw [if_neg hck, hnew, hempty,
        lookupStore_eq_none_of_not_containsKey _ _ (by simpa using hck)]
      simp
  · rw [mainRun_eq_run w hauth hurls (by simpa using hem)]
    show lookupStore (loopGo (extractO w) _ _ 0 (priorStore w)).1 k = _
    rw [loopGo_fst_lookup, hnew]
    by_cases hck : containsKey (priorStore w) k = true
    · rw [if_pos hck,
        if_neg (fun hc => not_mem_urls_to_process w k hck hc.1)]
    · rw [if_neg hck]
      have hpr : lookupStore (priorStore w) k = none :=
        lookupStore_eq_none_of_not_containsKey _ _ (by simpa using hck)
      by_cases hmem : k ∈ urls_to_process w
      · rw [if_pos hmem]
        cases hext : extractO w k with
        | none => rw [if_neg (by simp [hext]), hpr]
        | some r => rw [if_pos ⟨hmem, by simp [hext]⟩]
      · rw [if_neg hmem, if_neg (fun hc => hmem hc.1), hpr]

/-- C1: with both input artifacts present, the run processes exactly the
input URLs whose key is absent from the prior mapping, in input order; keys
present at load keep their prior records; and the final mapping looks up as
the prior mapping overlaid only on its missing keys by the newly extracted
records. -/
theorem resume_completeness (w : World) (hauth : w.authExists = true)
    (hurls : w.urlsExists = true) :
    (mainRun w).navigations =
      w.urlsContent.filter (fun u => !(containsKey (priorStore w) u)) ∧
    (∀ k, containsKey (priorStore w) k = true →
      lookupStore (mainRun w).finalStore k = lookupStore (priorStore w) k) ∧
    (∀ k, lookupStore (mainRun w).finalStore k =
      if containsKey (priorStore w) k = true then lookupStore (priorStore w) k
      else lookupStore (newRecords w) k) := by
  refine ⟨?_, ?_, mainRun_final_lookup w hauth hurls⟩
  · by_cases hem : (urls_to_process w).isEmpty
    · rw [mainRun_eq_done w hauth hurls hem]
      exact (List.isEmpty_iff.mp hem).symm
    · rw [mainRun_eq_run w hauth hurls (by simpa using hem)]
      rfl
  · intro k hk
    rw [mainRun_final_lookup w hauth hurls k, if_pos hk]

/-- Concrete instantiation of `resume_completeness`. -/
theorem resume_completeness_witness :
    (mainRun wResume).navigations =
      wResume.urlsContent.filter (fun u => !(containsKey (priorStore wResume) u)) ∧
    lookupStore (mainRun wResume).finalStore "a" = lookupStore (priorStore wResume) "a" :=
  ⟨(resume_completeness wResume rfl rfl).1,
   (resume_completeness wResume rfl rfl).2.1 "a" (by decide)⟩

/-- C5: a thread URL whose navigation times out yields no record, stays
absent from the final mapping, and does not stop the run: every URL of the
set-difference is still navigated. -/
theorem per_thread_timeout_skip (w : World) (u : String)
    (hauth : w.authExists = true) (hurls : w.urlsExists = true)
    (hnot : containsKey (priorStore w) u = false)
    (htimeout : w.nav u = NavOutcome.timeout) :
    scrape_thread_page u (w.nav u) = none ∧
    lookupStore (mainRun w).finalStore u = none ∧
    (mainRun w).navigations = urls_to_process w := by
  have hext : extractO w u = none := by
    unfold extractO
    rw [htimeout]
    rfl
  refine ⟨by rw [htimeout]; rfl, ?_, ?_⟩
  · rw [mainRun_final_lookup w hauth hurls u, if_neg (by simp [hnot])]
    unfold newRecords
    rw [lookupStore_filterMap]
    by_cases hmem : u ∈ urls_to_process w
    · rw [if_pos hmem, hext]
    · rw [if_neg hmem]
  · by_cases hem : (urls_to_process w).isEmpty
    · rw [mainRun_eq_done w hauth hurls hem, List.isEmpty_iff.mp hem]
    · rw [mainRun_eq_run w hauth hurls (by simpa using hem)]

/-- Concrete instantiation of `per_thread_timeout_skip`. -/
theorem per_thread_timeout_skip_witness :
    scrape_thread_page "c" (wResume.nav "c") = none ∧
    lookupStore (mainRun wResume).finalStore "c" = none ∧
    (mainRun wResume).navigations = urls_to_process wResume :=
  per_thread_timeout_skip wResume "c" rfl rfl (by decide) (by decide)

/-- C7: with the session artifact or the input-URL artifact absent, the
run performs zero navigations and writes nothing to the output artifact. -/
theorem fatal_precondition (w : World)
    (h : w.authExists = false ∨ w.urlsExists = false) :
    (mainRun w).navigations = [] ∧ (mainRun w).writes = [] := by
  rcases h with h | h
  · simp [mainRun, h]
  · by_cases ha : w.authExists = false
    · simp [mainRun, ha]
    · simp [mainRun, ha, h]

/-- Concrete instantiation of `fatal_precondition`. -/
theorem fatal_precondition_witness :
    (mainRun wNoAuth).navigations = [] ∧ (mainRun wNoAuth).writes = [] :=
  fatal_precondition wNoAuth (Or.inl rfl)

/-- C4 counterexample: in the 23-URL no-interruption scenario the data
file is written four times, not three — the in-loop rule fires after the
10th, 20th and 23rd records, and the `finally` block writes once more. -/
theorem flush_cadence_counterexample :
    (mainRun w23).writes.length = 4 ∧ ¬ ((mainRun w23).writes.length = 3) := by
  decide

/-- C4 amended: with batch size 10 and 23 URLs to process and no
interruption, the store is written exactly four times; in the concrete
23-URL world the snapshots hold 10, 20, 23 and 23 records, the final
unconditional loop-exit write repeating the store written after the 23rd
record. -/
theorem flush_cadence_amended :
    (∀ w : World, w.authExists = true → w.urlsExists = true →
      (urls_to_process w).length = 23 → (mainRun w).writes.length = 4) ∧
    (mainRun w23).writes.map (fun s => s.length) = [10, 20, 23, 23] ∧
    (mainRun w23).writes.getLast? = (mainRun w23).writes.get? 2 := by
  refine ⟨?_, by decide, by decide⟩
  intro w hauth hurls hlen
  have hne : (urls_to_process w).isEmpty = false := by
    cases h : urls_to_process w with
    | nil => rw [h] at hlen; simp at hlen
    | cons a t => simp [h]
  rw [mainRun_eq_run w hauth hurls hne]
  show (loopGo (extractO w) (urls_to_process w).length (urls_to_process w) 0 (priorStore w)).2.length = 4
  rw [loopGo_snd_length, hlen]
  decide

/-- Concrete instantiation of the general part of `flush_cadence_amended`. -/
theorem flush_cadence_amended_witness :
    (mainRun w23).writes.length = 4 :=
  flush_cadence_amended.1 w23 rfl rfl (by decide)

/-- C6: each message field degrades independently: a missing or failing
timestamp (or author, or body) yields its sentinel while the other fields
are unaffected, no message is dropped from the container list, and a
loaded thread page always yields a record. -/
theorem graceful_degradation :
    (∀ a b : Option String, (extract_message ⟨a, none, b⟩).timestamp = "N/A") ∧
    (∀ (a b t t' : Option String),
      (extract_message ⟨a, t, b⟩).author = (extract_message ⟨a, t', b⟩).author ∧
      (extract_message ⟨a, t, b⟩).body = (extract_message ⟨a, t', b⟩).body) ∧
    (∀ t b : Option String, (extract_message ⟨none, t, b⟩).author = "N/A") ∧
    (∀ a t : Option String, (extract_message ⟨a, t, none⟩).body = "N/A") ∧
    (∀ cs : List MsgContainer, (scrape_messages cs).length = cs.length) ∧
    (∀ (url : String) (v : PageView),
      (scrape_thread_page url (NavOutcome.loaded v)).isSome = true) :=
  ⟨fun _ _ => rfl, fun _ _ _ _ => ⟨rfl, rfl⟩, fun _ _ => rfl, fun _ _ => rfl,
   fun cs => List.length_map cs extract_message, fun _ _ => rfl⟩

/-! ### Lemmas about the title parser -/

theorem takeWhile_eq_self_of_forall (p : α → Bool) (l : List α)
    (h : ∀ x ∈ l, p x = true) : l.takeWhile p = l := by
  induction l with
  | nil => rfl
  | cons c rest ih =>
    rw [List.takeWhile_cons, if_pos (h c (List.mem_cons_self c rest))]
    rw [ih (fun x hx => h x (List.mem_cons_of_mem c hx))]

theorem afterLastDelim_of_not_mem (d : Char) (l : List Char) (h : d ∉ l) :
    afterLastDelim d l = l := by
  unfold afterLastDelim
  rw [takeWhile_eq_self_of_forall (fun c => decide (c ≠ d)) l.reverse
    (fun x hx => decide_eq_true (fun hxd : x = d => h (hxd ▸ List.mem_reverse.mp hx)))]
  exact List.reverse_reverse l

theorem afterLastDelim_cons_of_mem (d c : Char) (t : List Char) (h : d ∈ t) :
    afterLastDelim d (c :: t) = afterLastDelim d t := by
  unfold afterLastDelim
  rw [List.reverse_cons, List.takeWhile_append]
  rw [if_neg (fun hlen => by
    have heq := (List.takeWhile_sublist (l := t.reverse)
      (fun x => decide (x ≠ d))).eq_of_length hlen
    have hd : d ∈ List.takeWhile (fun x => decide (x ≠ d)) t.reverse := by
      rw [heq]
      exact List.mem_reverse.mpr h
    have := List.mem_takeWhile_imp hd
    simp at this)]

theorem afterLastDelim_cons_self (d : Char) (t : List Char) (h : d ∉ t) :
    afterLastDelim d (d :: t) = t := by
  unfold afterLastDelim
  rw [List.reverse_cons, List.takeWhile_append]
  rw [takeWhile_eq_self_of_forall (fun c => decide (c ≠ d)) t.reverse
    (fun x hx => decide_eq_true (fun hxd : x = d => h (hxd ▸ List.mem_reverse.mp hx)))]
  rw [if_pos rfl]
  have : List.takeWhile (fun x => decide (x ≠ d)) [d] = [] := by simp
  rw [this, List.append_nil, List.reverse_reverse]

theorem getLastD_ne_nil_default (qs : List (List Char)) (x y : List Char)
    (h : qs ≠ []) : qs.getLastD x = qs.getLastD y := by
  cases qs with
  | nil => exact absurd rfl h
  | cons q qt => rw [List.getLastD_cons, List.getLastD_cons]

theorem getLastD_splitOnChar (d : Char) (l : List Char) :
    (splitOnChar d l).getLastD [] = afterLastDelim d l := by
  induction l with
  | nil => simp [splitOnChar, afterLastDelim]
  | cons c t ih =>
    by_cases hct : d ∈ t
    · by_cases hc : c = d
      · subst hc
        rw [show splitOnChar c (c :: t) = [] :: splitOnChar c t from by simp [splitOnChar]]
        rw [List.getLastD_cons, afterLastDelim_cons_of_mem c c t hct]
        rw [← ih]
      · cases hsp : splitOnChar d t with
        | nil => exact absurd hsp (splitOnChar_ne_nil d t)
        | cons q qs =>
          have hqs : qs ≠ [] := by
            have hlen := (one_lt_length_splitOnChar d t).mpr hct
            rw [hsp] at hlen
            simp only [List.length_cons] at hlen
            intro h0
            rw [h0] at hlen
            simp at hlen
          rw [show splitOnChar d (c :: t) = (c :: q) :: qs from by
            simp only [splitOnChar, if_neg hc]
            rw [hsp]]
          rw [afterLastDelim_cons_of_mem d c t hct, ← ih, hsp]
          rw [List.getLastD_cons, List.getLastD_cons]
          exact getLastD_ne_nil_default qs (c :: q) q hqs
    · by_cases hc : c = d
      · subst hc
        rw [show splitOnChar c (c :: t) = [] :: splitOnChar c t from by simp [splitOnChar]]
        rw [splitOnChar_of_not_mem c t hct, afterLastDelim_cons_self c t hct]
        rfl
      · have hnotc : d ∉ c :: t := by
          intro hm
          rcases List.mem_cons.mp hm with h | h
          · exact hc h.symm
          · exact hct h
        rw [splitOnChar_of_not_mem d (c :: t) hnotc,
          afterLastDelim_of_not_mem d (c :: t) hnotc]
        rfl

/-- C8: title parsing strips everything up to the last delimiter and
trims, keeps the raw title when no delimiter occurs, and produces the
sentinel when title retrieval fails. -/
theorem title_parsing :
    scrape_title none = "Title not found" ∧
    (∀ s : String, '|' ∈ s.data →
      scrape_title (some s) = String.mk (trimChars (afterLastDelim '|' s.data))) ∧
    (∀ s : String, '|' ∉ s.data → scrape_title (some s) = s) := by
  refine ⟨rfl, ?_, ?_⟩
  · intro s h
    show (if (splitOnChar '|' s.data).length > 1 then
      String.mk (trimChars ((splitOnChar '|' s.data).getLastD [])) else s) = _
    rw [if_pos ((one_lt_length_splitOnChar '|' s.data).mpr h), getLastD_splitOnChar]
  · intro s h
    show (if (splitOnChar '|' s.data).length > 1 then
      String.mk (trimChars ((splitOnChar '|' s.data).getLastD [])) else s) = s
    rw [if_neg (fun hgt => h ((one_lt_length_splitOnChar '|' s.data).mp hgt))]

/-- Concrete instantiation of `title_parsing`. -/
theorem title_parsing_witness :
    ('|' ∈ "g | a|b ".data ∧
      scrape_title (some "g | a|b ") =
        String.mk (trimChars (afterLastDelim '|' "g | a|b ".data))) ∧
    ('|' ∉ "ab".data ∧ scrape_title (some "ab") = "ab") :=
  ⟨⟨by decide, title_parsing.2.1 "g | a|b " (by decide)⟩,
   ⟨by decide, title_parsing.2.2 "ab" (by decide)⟩⟩

/-! ### Lemmas about the pagination strategy resolver -/

theorem find_and_click_next_page_ne_error (outs : List ProbeOutcome) :
    find_and_click_next_page outs ≠ Except.error () := by
  induction outs with
  | nil => simp [find_and_click_next_page]
  | cons o rest ih => cases o <;> simp [find_and_click_next_page, ih]

theorem find_and_click_next_page_ok_true_iff (outs : List ProbeOutcome) :
    find_and_click_next_page outs = Except.ok true ↔ ProbeOutcome.visible ∈ outs := by
  induction outs with
  | nil => simp [find_and_click_next_page]
  | cons o rest ih => cases o <;> simp [find_and_click_next_page, ih]

theorem find_and_click_next_page_ok_false_iff (outs : List ProbeOutcome) :
    find_and_click_next_page outs = Except.ok false ↔ ProbeOutcome.visible ∉ outs := by
  induction outs with
  | nil => simp [find_and_click_next_page]
  | cons o rest ih => cases o <;> simp [find_and_click_next_page, ih]

/-- C3 counterexample: in the `00002` variant only `TimeoutError` is
caught, so a probe raising any other exception propagates out of
`find_and_click_next_page`, which then returns neither success nor
failure. -/
theorem strategy_absorption_counterexample :
    find_and_click_next_page_v0 [ProbeOutcome.otherErr] = Except.error () ∧
    find_and_click_next_page_v0 [ProbeOutcome.otherErr] ≠ Except.ok true ∧
    find_and_click_next_page_v0 [ProbeOutcome.otherErr] ≠ Except.ok false := by
  refine ⟨rfl, fun h => ?_, fun h => ?_⟩
  · exact Except.noConfusion h
  · exact Except.noConfusion h

/-- C3 amended: the `000002` variant absorbs every probe failure, returns
success exactly when a strategy finds a visible candidate (which is
clicked) and failure exactly on exhaustion; the `00002` variant behaves
identically only when no probe raises a non-timeout exception. -/
theorem strategy_resolver_amended :
    (∀ outs : List ProbeOutcome, find_and_click_next_page outs ≠ Except.error ()) ∧
    (∀ outs : List ProbeOutcome,
      find_and_click_next_page outs = Except.ok true ↔ ProbeOutcome.visible ∈ outs) ∧
    (∀ outs : List ProbeOutcome,
      find_and_click_next_page outs = Except.ok false ↔ ProbeOutcome.visible ∉ outs) ∧
    (∀ outs : List ProbeOutcome, ProbeOutcome.otherErr ∉ outs →
      find_and_click_next_page_v0 outs = find_and_click_next_page outs) := by
  refine ⟨find_and_click_next_page_ne_error, find_and_click_next_page_ok_true_iff,
    find_and_click_next_page_ok_false_iff, ?_⟩
  intro outs h
  induction outs with
  | nil => rfl
  | cons o rest ih =>
    have hrest : ProbeOutcome.otherErr ∉ rest := fun hm => h (List.mem_cons_of_mem o hm)
    cases o with
    | visible => rfl
    | notVisible =>
      show find_and_click_next_page_v0 rest = find_and_click_next_page rest
      exact ih hrest
    | timeoutErr =>
      show find_and_click_next_page_v0 rest = find_and_click_next_page rest
      exact ih hrest
    | otherErr => exact absurd (List.mem_cons_self _ rest) h

/-- Concrete instantiation of `strategy_resolver_amended`. -/
theorem strategy_resolver_amended_witness :
    ProbeOutcome.otherErr ∉
      [ProbeOutcome.timeoutErr, ProbeOutcome.notVisible, ProbeOutcome.visible] ∧
    find_and_click_next_page_v0
      [ProbeOutcome.timeoutErr, ProbeOutcome.notVisible, ProbeOutcome.visible] =
    find_and_click_next_page
      [ProbeOutcome.timeoutErr, ProbeOutcome.notVisible, ProbeOutcome.visible] :=
  ⟨by decide, strategy_resolver_amended.2.2.2 _ (by decide)⟩

/-! ### Lemmas about the discovery loop -/

theorem get_all_thread_urls_advance (advance : Nat → Bool)
    (links : Nat → List (Option String)) :
    ∀ (K fuel pc : Nat) (seen : List String),
      (∀ p, pc ≤ p → p < pc + K → advance p = true) →
      advance (pc + K) = false → K < fuel →
      (get_all_thread_urls advance links fuel pc seen).map Prod.fst = some (pc + K) := by
  intro K
  induction K with
  | zero =>
    intro fuel pc seen _ hfail hfuel
    cases fuel with
    | zero => omega
    | succ f =>
      simp only [get_all_thread_urls]
      rw [if_neg (by simp [show advance pc = false from by simpa using hfail])]
      simp
  | succ K ih =>
    intro fuel pc seen hadv hfail hfuel
    cases fuel with
    | zero => omega
    | succ f =>
      simp only [get_all_thread_urls]
      rw [if_pos (hadv pc le_rfl (by omega))]
      have hres := ih f (pc + 1) (addPageUrls seen (links pc))
        (fun p h1 h2 => hadv p (by omega) (by omega))
        (by rw [show pc + 1 + K = pc + (K + 1) from by omega]; exact hfail)
        (by omega)
      rw [hres]
      congr 1
      omega

theorem get_all_thread_urls_no_fail (advance : Nat → Bool)
    (links : Nat → List (Option String)) (hadv : ∀ p, advance p = true) :
    ∀ (fuel pc : Nat) (seen : List String),
      get_all_thread_urls advance links fuel pc seen = none := by
  intro fuel
  induction fuel with
  | zero => intro pc seen; rfl
  | succ f ih =>
    intro pc seen
    simp only [get_all_thread_urls]
    rw [if_pos (hadv pc)]
    exact ih (pc + 1) _

theorem get_by_looping_go_length (pages : Nat → PageFetch) :
    ∀ (rng : List Nat) (seen : List String),
      (get_by_looping_go pages rng seen).2.length ≤ rng.length := by
  intro rng
  induction rng with
  | nil => intro seen; simp [get_by_looping_go]
  | cons p rest ih =>
    intro seen
    cases hp : pages p with
    | timeout => simp [get_by_looping_go, hp]
    | loaded hrefs =>
      by_cases he : hrefs.isEmpty
      · simp [get_by_looping_go, hp, he]
      · simp only [get_by_looping_go, hp, if_neg he]
        have := ih (addPageUrls seen hrefs)
        simp only [List.length_cons]
        omega

/-- C2 counterexample: the looping discovery variant
(`02_main_scraper.py`) treats a zero-link page as a termination
condition: with pages 1 and 3 carrying links, no timeouts and no
pagination-advance step at all, a link-less page 2 ends collection after
page 1, and page 3's link is never collected. -/
theorem discovery_termination_counterexample :
    (get_all_thread_urls_by_looping pagesZero).2 = [1] ∧
    "https://groups.io/g/p3" ∉ (get_all_thread_urls_by_looping pagesZero).1 := by
  decide

/-- C2 amended: in the advance-based discovery loop (`000002`) a failing
advance is the sole termination condition — failure on page K+1 after
successes on pages 1..K ends discovery after exactly K page transitions,
whatever the per-page links, zero-link pages included, and the loop never
terminates while advance keeps succeeding; the looping variant (`02`) has
no advance step and instead terminates on the first page timeout, on the
first page with zero thread links, or when the fixed page range 1..9 is
exhausted. -/
theorem discovery_termination_amended :
    (∀ (advance : Nat → Bool) (links : Nat → List (Option String)) (K fuel : Nat),
      (∀ p, 1 ≤ p → p ≤ K → advance p = true) →
      advance (K + 1) = false → K < fuel →
      (get_all_thread_urls advance links fuel 1 []).map Prod.fst = some (K + 1)) ∧
    (∀ (advance : Nat → Bool) (links : Nat → List (Option String))
        (fuel pc : Nat) (seen : List String),
      (∀ p, advance p = true) →
      get_all_thread_urls advance links fuel pc seen = none) ∧
    (∀ (pages : Nat → PageFetch) (p : Nat) (rest : List Nat) (seen : List String),
      pages p = PageFetch.timeout →
      get_by_looping_go pages (p :: rest) seen = (seen, [])) ∧
    (∀ (pages : Nat → PageFetch) (p : Nat) (rest : List Nat) (seen : List String),
      pages p = PageFetch.loaded [] →
      get_by_looping_go pages (p :: rest) seen = (seen, [])) ∧
    (∀ pages : Nat → PageFetch,
      (get_all_thread_urls_by_looping pages).2.length ≤ 9) := by
  refine ⟨?_, ?_, ?_, ?_, ?_⟩
  · intro advance links K fuel h1 h2 h3
    have hres := get_all_thread_urls_advance advance links K fuel 1 []
      (fun p hp1 hp2 => h1 p hp1 (by omega))
      (by rw [show 1 + K = K + 1 from by omega]; exact h2) h3
    rw [hres]
    congr 1
    omega
  · exact fun advance links fuel pc seen h =>
      get_all_thread_urls_no_fail advance links h fuel pc seen
  · intro pages p rest seen h
    simp only [get_by_looping_go, h]
  · intro pages p rest seen h
    simp only [get_by_looping_go, h]
    rfl
  · intro pages
    exact get_by_looping_go_length pages PAGE_RANGE []

/-- Concrete instantiation of `discovery_termination_amended`: three
link-less pages with advance failing on page 4 for the advance-based loop,
and a link-less page stopping the looping variant. -/
theorem discovery_termination_amended_witness :
    (get_all_thread_urls (fun p => decide (p ≤ 3)) (fun _ => []) 10 1 []).map Prod.fst =
      some 4 ∧
    get_by_looping_go pagesZero (2 :: [3]) ["https://groups.io/g/p1"] =
      (["https://groups.io/g/p1"], []) :=
  ⟨discovery_termination_amended.1 (fun p => decide (p ≤ 3)) (fun _ => []) 3 10
    (fun p _ h2 => decide_eq_true h2) (by decide) (by decide),
   discovery_termination_amended.2.2.2.1 pagesZero 2 [3] _ (by decide)⟩

/-! ### Lemmas about the sorted artifact -/

theorem lexLe_total : ∀ as bs : List Char, lexLe as bs = true ∨ lexLe bs as = true := by
  intro as
  induction as with
  | nil => intro bs; left; rfl
  | cons a as ih =>
    intro bs
    cases bs with
    | nil => right; rfl
    | cons b bs =>
      simp only [lexLe]
      by_cases h1 : a.toNat < b.toNat
      · left
        rw [if_pos h1]
      · by_cases h2 : b.toNat < a.toNat
        · right
          rw [if_pos h2]
        · rcases ih bs with h | h
          · left
            rw [if_neg h1, if_neg h2]
            exact h
          · right
            rw [if_neg h2, if_neg h1]
            exact h

theorem lexLe_trans : ∀ as bs cs : List Char,
    lexLe as bs = true → lexLe bs cs = true → lexLe as cs = true := by
  intro as
  induction as with
  | nil => intro bs cs _ _; rfl
  | cons a as ih =>
    intro bs cs hab hbc
    cases bs with
    | nil => simp [lexLe] at hab
    | cons b bs =>
      cases cs with
      | nil => simp [lexLe] at hbc
      | cons c cs =>
        simp only [lexLe] at hab hbc ⊢
        split at hab
        · rename_i h1
          split at hbc
          · rename_i h3
            rw [if_pos (by omega)]
          · split at hbc
            · simp at hbc
            · rename_i h3 h4
              rw [if_pos (by omega)]
        · split at hab
          · simp at hab
          · rename_i h1 h2
            split at hbc
            · rename_i h3
              rw [if_pos (by omega)]
            · split at hbc
              · simp at hbc
              · rename_i h3 h4
                rw [if_neg (by omega), if_neg (by omega)]
                exact ih bs cs hab hbc

theorem strLe_total (a b : String) : strLe a b = true ∨ strLe b a = true :=
  lexLe_total a.data b.data

theorem strLe_trans (a b c : String) (hab : strLe a b = true) (hbc : strLe b c = true) :
    strLe a c = true :=
  lexLe_trans a.data b.data c.data hab hbc

theorem insertSorted_perm (x : String) (l : List String) :
    (insertSorted x l).Perm (x :: l) := by
  induction l with
  | nil => exact List.Perm.refl _
  | cons y ys ih =>
    simp only [insertSorted]
    split
    · exact List.Perm.refl _
    · exact (ih.cons y).trans (List.Perm.swap x y ys)

theorem sortStrings_perm (l : List String) : (sortStrings l).Perm l := by
  induction l with
  | nil => exact List.Perm.refl _
  | cons a l ih =>
    show (insertSorted a (sortStrings l)).Perm (a :: l)
    exact (insertSorted_perm a (sortStrings l)).trans (ih.cons a)

theorem insertSorted_pairwise (x : String) (l : List String)
    (h : l.Pairwise (fun a b => strLe a b = true)) :
    (insertSorted x l).Pairwise (fun a b => strLe a b = true) := by
  induction l with
  | nil => simp [insertSorted]
  | cons y ys ih =>
    rw [List.pairwise_cons] at h
    obtain ⟨hy, hys⟩ := h
    simp only [insertSorted]
    split
    · rename_i hxy
      rw [List.pairwise_cons]
      refine ⟨?_, List.pairwise_cons.mpr ⟨hy, hys⟩⟩
      intro z hz
      rcases List.mem_cons.mp hz with h | h
      · exact h ▸ hxy
      · exact strLe_trans x y z hxy (hy z h)
    · rename_i hxy
      have hyx : strLe y x = true := by
        rcases strLe_total x y with h | h
        · exact absurd h hxy
        · exact h
      rw [List.pairwise_cons]
      refine ⟨?_, ih hys⟩
      intro z hz
      rcases List.mem_cons.mp ((insertSorted_perm x ys).mem_iff.mp hz) with h | h
      · exact h ▸ hyx
      · exact hy z h

theorem sortStrings_pairwise (l : List String) :
    (sortStrings l).Pairwise (fun a b => strLe a b = true) := by
  induction l with
  | nil => simp [sortStrings]
  | cons a l ih =>
    show (insertSorted a (sortStrings l)).Pairwise _
    exact insertSorted_pairwise a (sortStrings l) ih

theorem mem_setInsert (s : List String) (x u : String) (h : u ∈ setInsert s x) :
    u ∈ s ∨ u = x := by
  unfold setInsert at h
  split at h
  · exact Or.inl h
  · rcases List.mem_append.mp h with h | h
    · exact Or.inl h
    · exact Or.inr (by simpa using h)

theorem setInsert_nodup (s : List String) (x : String) (h : s.Nodup) :
    (setInsert s x).Nodup := by
  unfold setInsert
  split
  · exact h
  · rename_i hx
    rw [List.nodup_append]
    refine ⟨h, List.nodup_singleton x, ?_⟩
    intro a ha hax
    have hax2 : a = x := by simpa using hax
    exact hx (hax2 ▸ ha)

theorem addPageUrls_nodup (hrefs : List (Option String)) :
    ∀ seen : List String, seen.Nodup → (addPageUrls seen hrefs).Nodup := by
  induction hrefs with
  | nil => intro seen h; exact h
  | cons o rest ih =>
    intro seen h
    cases o with
    | none => exact ih seen h
    | some href => exact ih _ (setInsert_nodup seen _ h)

theorem addPageUrls_origin (hrefs : List (Option String)) :
    ∀ (seen : List String) (u : String), u ∈ addPageUrls seen hrefs →
      u ∈ seen ∨ ∃ href, u = "https://groups.io" ++ href := by
  induction hrefs with
  | nil => intro seen u h; exact Or.inl h
  | cons o rest ih =>
    intro seen u h
    cases o with
    | none => exact ih seen u h
    | some href =>
      rcases ih _ u h with h | h
      · rcases mem_setInsert seen _ u h with h | h
        · exact Or.inl h
        · exact Or.inr ⟨href, h⟩
      · exact Or.inr h

theorem get_all_thread_urls_result (advance : Nat → Bool)
    (links : Nat → List (Option String)) :
    ∀ (fuel pc : Nat) (seen : List String) (k : Nat) (urls : List String),
      seen.Nodup → (∀ u ∈ seen, ∃ href, u = "https://groups.io" ++ href) →
      get_all_thread_urls advance links fuel pc seen = some (k, urls) →
      urls.Nodup ∧ ∀ u ∈ urls, ∃ href, u = "https://groups.io" ++ href := by
  intro fuel
  induction fuel with
  | zero => intro pc seen k urls _ _ h; exact absurd h (by simp [get_all_thread_urls])
  | succ f ih =>
    intro pc seen k urls hnd hP h
    simp only [get_all_thread_urls] at h
    by_cases hadv : advance pc = true
    · rw [if_pos hadv] at h
      exact ih (pc + 1) _ k urls (addPageUrls_nodup (links pc) seen hnd)
        (fun u hu => (addPageUrls_origin (links pc) seen u hu).elim (hP u) id) h
    · rw [if_neg hadv] at h
      have hurls : urls = addPageUrls seen (links pc) := by
        cases h
        rfl
      subst hurls
      exact ⟨addPageUrls_nodup (links pc) seen hnd,
        fun u hu => (addPageUrls_origin (links pc) seen u hu).elim (hP u) id⟩

/-- C9: any persisted discovery artifact is sorted in the lexicographic
string order, contains no duplicates, and each of its URLs is the fixed
scheme-qualified host prefixed to some collected href. -/
theorem discovery_artifact_form (advance : Nat → Bool)
    (links : Nat → List (Option String)) (fuel : Nat) (art : List String)
    (h : discovery_artifact advance links fuel = some art) :
    art.Pairwise (fun a b => strLe a b = true) ∧ art.Nodup ∧
    ∀ u ∈ art, ∃ href, u = "https://groups.io" ++ href := by
  unfold discovery_artifact at h
  cases hg : get_all_thread_urls advance links fuel 1 [] with
  | none =>
    rw [hg] at h
    exact absurd h (by simp)
  | some r =>
    rw [hg] at h
    simp only [Option.map_some'] at h
    obtain ⟨k, urls⟩ := r
    have hart : art = sortStrings urls := by
      cases h
      rfl
    subst hart
    obtain ⟨hnd, hP⟩ := get_all_thread_urls_result advance links fuel 1 [] k urls
      (List.nodup_nil) (by simp) hg
    exact ⟨sortStrings_pairwise urls, ((sortStrings_perm urls).nodup_iff).mpr hnd,
      fun u hu => hP u ((sortStrings_perm urls).mem_iff.mp hu)⟩

/-- Concrete instantiation of `discovery_artifact_form`. -/
theorem discovery_artifact_form_witness :
    ["https://groups.io/g/x"].Pairwise (fun a b => strLe a b = true) ∧
    ["https://groups.io/g/x"].Nodup ∧
    ∀ u ∈ ["https://groups.io/g/x"], ∃ href, u = "https://groups.io" ++ href :=
  discovery_artifact_form (fun p => decide (p ≤ 2)) (fun _ => [some "/g/x"]) 10
    ["https://groups.io/g/x"] (by decide)
